import Mathlib

/-!
Shallow embedding of the classical PSHA hazard core of openquake:
`openquake/utils/tasks.py` (the task distributor) and
`openquake/calculators/hazard/classical/core.py` (per-realization seed
draws of `do_curves`, the block loop of `execute`, the kvs purge
`release_data_from_kvs`, and the polling loop of
`serialize_hazard_curve`).  External collaborators (celery, the kvs
client, the serializers, the stats counters) are modelled by the
interfaces the core uses: an ordered join of subtask results, a key/value
lookup, per-cycle failure counters and value availability.
-/

namespace OpenQuake

variable {α β γ σ V : Type}

/-! ### Task distributor (`openquake/utils/tasks.py`, `distribute`) -/

/-- Result of one celery subtask: either a value or a raised exception
(exceptions are identified here by a numeric code). -/
inductive TaskRes (β : Type) where
  | ok (b : β)
  | exn (e : Nat)
deriving DecidableEq

/-- A celery task callable: the behaviour of one subtask on its data item
(the fixed keyword arguments `tf_args` are folded into `run`) together
with its `ignore_result` flag, which selects the mode of `distribute`. -/
structure TaskFunc (α β : Type) where
  run : α → TaskRes β
  ignoreResult : Bool

/-- What a call to `distribute` comes back with: a raised exception, the
joined ordered subtask results, the value of the asynchronous task
handler `ath`, or nothing (`None`). -/
inductive DistResult (β γ : Type) where
  | raised (e : Nat)
  | collected (rs : List (TaskRes β))
  | athRes (g : γ)
  | noResult
deriving DecidableEq

/-- Whether the call to `distribute` ended in a raised exception. -/
def DistResult.isRaised : DistResult β γ → Bool
  | .raised _ => true
  | _ => false

/-- The behaviour of `_check_exception` (`tasks.py` lines 90-94): it scans
the joined results in order and raises the first exception found.  Here:
the exception it would raise, if any. -/
def firstExn : List (TaskRes β) → Option Nat
  | [] => none
  | .exn e :: _ => some e
  | .ok _ :: rest => firstExn rest

/-- The function `distribute` (`tasks.py` lines 28-87).  One subtask per data item, in
item order; the work-queue substrate (`TaskSet(...).apply_async()` with
`join_native`) is modelled by its contract: one result per subtask, in
submission order.  Returns the submitted subtask payloads and the
outcome.  With `ignore_result` set the call returns at once, handing
control to `ath` when one is given; otherwise it joins the results,
raises the first exception among them if any, and returns them.
(`flatten_results` is left out: it defaults to `False` and no call site
in `core.py` passes it; `tf_args` is folded into `TaskFunc.run`.) -/
def distribute (tf : TaskFunc α β) (data : List α) (ath : Option (Unit → γ)) :
    List α × DistResult β γ :=
  let subtasks := data
  if tf.ignoreResult then
    match ath with
    | some f => (subtasks, .athRes (f ()))
    | none => (subtasks, .noResult)
  else
    let results := data.map tf.run
    match firstExn results with
    | some e => (subtasks, .raised e)
    | none => (subtasks, .collected results)

/-! ### Per-realization seed draws (`core.py`, `do_curves`, lines 183-228) -/

/-- State of one `random.Random()` stream after `seed(s)`: its seed and the
number of draws made so far.  The values produced are abstracted by a
function `randbits : seed → draw index → value` supplied to the model:
the claims are about which stream a draw comes from, not about the
Mersenne-Twister values themselves. -/
structure RandomGen where
  seed : Nat
  idx : Nat
deriving DecidableEq

/-- A fresh `random.Random()` followed by `seed(s)`. -/
def RandomGen.seeded (s : Nat) : RandomGen := ⟨s, 0⟩

/-- One call `gen.getrandbits(32)`: the next value of the stream together with the
advanced stream. -/
def getrandbits (randbits : Nat → Nat → Nat) (g : RandomGen) : Nat × RandomGen :=
  (randbits g.seed g.idx, ⟨g.seed, g.idx + 1⟩)

/-- The two job-level seeds `do_curves` reads from the job context:
`SOURCE_MODEL_LT_RANDOM_SEED` and `GMPE_LT_RANDOM_SEED`. -/
structure JobCtxt where
  smSeed : Nat
  gmpeSeed : Nat
deriving DecidableEq

/-- Realization loop of `do_curves` (`core.py` lines 216-228).  Per
realization the source calls
`store_source_model(source_model_generator.getrandbits(32))` and then
`store_gmpe_map(source_model_generator.getrandbits(32))`: the second draw
is likewise taken from `source_model_generator` (line 221), while
`gmpe_generator` is threaded through untouched, exactly as in the
source.  Returns the stored (source-model seed, gmpe-map seed) pairs,
one per realization. -/
def do_curvesAux (randbits : Nat → Nat → Nat) :
    RandomGen → RandomGen → Nat → List (Nat × Nat)
  | _, _, 0 => []
  | smg, gmg, n + 1 =>
    let sm := getrandbits randbits smg
    let gm := getrandbits randbits sm.2
    (sm.1, gm.1) :: do_curvesAux randbits gm.2 gmg n

/-- The method `do_curves` (`core.py` lines 207-228): create `source_model_generator`
seeded with `SOURCE_MODEL_LT_RANDOM_SEED` and `gmpe_generator` seeded
with `GMPE_LT_RANDOM_SEED`, then run the realization loop. -/
def do_curves (randbits : Nat → Nat → Nat) (ctxt : JobCtxt)
    (realizations : Nat) : List (Nat × Nat) :=
  do_curvesAux randbits (RandomGen.seeded ctxt.smSeed)
    (RandomGen.seeded ctxt.gmpeSeed) realizations

/-- Modelled from the spec: the per-realization draws as the spec
describes them (spec section 4.3 step 1) — two independent seeded
streams, the source-model seed drawn from the stream seeded with
`SOURCE_MODEL_LT_RANDOM_SEED` and the ground-motion-model seed drawn
from the stream seeded with `GMPE_LT_RANDOM_SEED`, one draw of each per
realization.  Used only for comparison with `do_curves`. -/
def do_curvesSpec (randbits : Nat → Nat → Nat) (ctxt : JobCtxt)
    (realizations : Nat) : List (Nat × Nat) :=
  (List.range realizations).map fun r =>
    (randbits ctxt.smSeed r, randbits ctxt.gmpeSeed r)

/-! ### Block scheduler (`core.py`, `execute`, lines 346-403) -/

/-- Python `range(0, stop, step)` for a positive `step` (the block starts
of `execute`, line 369). -/
def pyRange (stop step : Nat) : List Nat :=
  (List.range ((stop + step - 1) / step)).map (· * step)

/-- The stored per-realization seed pairs, block by block: `execute`
invokes `do_curves` afresh for every block start in
`range(0, len(sites), block_size)` (lines 373-381), and the seed draws of
`do_curves` do not depend on the block's site slice. -/
def executeSeeds (randbits : Nat → Nat → Nat) (ctxt : JobCtxt)
    (realizations : Nat) (sites : List σ) (blockSize : Nat) :
    List (List (Nat × Nat)) :=
  (pyRange sites.length blockSize).map fun _ => do_curves randbits ctxt realizations

/-- The four phases `execute` runs for each block, in source order:
`do_curves`, `do_means`, `do_quantiles`, `release_data_from_kvs`. -/
inductive Phase where
  | curves
  | means
  | quantiles
  | purge
deriving DecidableEq

/-- The phases in the order `execute` invokes them for one block
(lines 378-403). -/
def phaseOrder : List Phase := [.curves, .means, .quantiles, .purge]

/-- One phase invocation in the run's trace: the block (identified by its
start offset), the phase, and the site slice it was given. -/
structure BlockEvent (σ : Type) where
  start : Nat
  phase : Phase
  data : List σ
deriving DecidableEq

/-- Run the phases of one block in order; `raises start phase = true`
means that phase raised for that block.  A raising phase still appears
in the trace (it was invoked) but stops execution, so the later phases
of the block are not reached. -/
def runPhases (raises : Nat → Phase → Bool) (start : Nat) (data : List σ) :
    List Phase → List (BlockEvent σ) × Bool
  | [] => ([], true)
  | p :: ps =>
    if raises start p then ([⟨start, p, data⟩], false)
    else
      let r := runPhases raises start data ps
      (⟨start, p, data⟩ :: r.1, r.2)

/-- The block loop of `execute` (lines 373-403): for each start in
`range(0, len(sites), block_size)`, slice
`data = sites[start:start + block_size]` and run the four phases in
order; an exception anywhere propagates out and ends the run. -/
def executeLoop (raises : Nat → Phase → Bool) (sites : List σ)
    (blockSize : Nat) : List Nat → List (BlockEvent σ) × Bool
  | [] => ([], true)
  | start :: more =>
    let data := (sites.drop start).take blockSize
    let r := runPhases raises start data phaseOrder
    if r.2 then
      let rest := executeLoop raises sites blockSize more
      (r.1 ++ rest.1, rest.2)
    else
      (r.1, false)

/-- The method `execute` (lines 346-403), viewed through its phase-invocation trace
and whether it completed without an exception. -/
def execute (raises : Nat → Phase → Bool) (sites : List σ)
    (blockSize : Nat) : List (BlockEvent σ) × Bool :=
  executeLoop raises sites blockSize (pyRange sites.length blockSize)

/-! ### Purge (`core.py`, `release_data_from_kvs`, lines 128-176) -/

/-- Cache keys as the key templates instantiate them with a site's
fingerprint.  Sites are identified by their fingerprint `σ`; per spec
section 4.4 two distinct sites never collide, so keys are modelled
injectively. -/
inductive KvsKey (σ : Type) where
  | curve (job realization : Nat) (site : σ)
  | meanCurve (job : Nat) (site : σ)
  | quantileCurve (job : Nat) (quantile : ℚ) (site : σ)
  | meanMap (job : Nat) (poe : ℚ) (site : σ)
  | quantileMap (job : Nat) (poe quantile : ℚ) (site : σ)
deriving DecidableEq

/-- The keys `release_data_from_kvs` deletes, in source order: the
per-realization curve keys for every realization (lines 145-151), the
mean curve keys (153-157), per quantile the quantile curve keys extended
with that quantile's map keys for every PoE (159-169), and the mean map
keys for every PoE (171-176).  (`kvs_keys_purged` is test plumbing and
accumulates this same list.) -/
def release_data_from_kvs (job : Nat) (sites : List σ) (realizations : Nat)
    (quantiles poes : List ℚ) : List (KvsKey σ) :=
  ((List.range realizations).map fun r => sites.map (KvsKey.curve job r)).flatten
    ++ sites.map (KvsKey.meanCurve job)
    ++ (quantiles.map fun q =>
        sites.map (KvsKey.quantileCurve job q)
          ++ (poes.map fun poe =>
              sites.map (KvsKey.quantileMap job poe q)).flatten).flatten
    ++ (poes.map fun poe => sites.map (KvsKey.meanMap job poe)).flatten

/-- The effect of `kvs.get_client().delete(*keys)` on a cache: every listed key
becomes absent, all other keys are untouched. -/
def deleteKeys [DecidableEq σ] (cache : KvsKey σ → Option V)
    (ks : List (KvsKey σ)) : KvsKey σ → Option V :=
  fun k => if k ∈ ks then none else cache k

/-! ### Polling loop (`core.py`, `serialize_hazard_curve`, lines 457-547) -/

/-- The constant `min_pause` (line 504). -/
def minPause : ℚ := 0.1

/-- One advance of `pause_generator` past its first yield (lines 484-488):
the generator doubles its internal value while that value is below 45
and then stops growing. -/
def escalate (value : ℚ) : ℚ := if value < 45 then value * 2 else value

/-- The decay applied to the pause on a cycle that found results
(lines 544-545): `pause *= 0.8`, floored at `min_pause`. -/
def decay (pause : ℚ) : ℚ :=
  let p := pause * 0.8
  if p < minPause then minPause else p

/-- The successive values yielded by `pause_generator(min_pause)`:
`genVal 0` is the first yield and `genVal (k + 1)` the value yielded
after `k + 1` further `next()` calls. -/
def genVal : Nat → ℚ
  | 0 => minPause
  | k + 1 => escalate (genVal k)

/-- What the world looks like to one polling cycle: the job's recorded
failure count (`stats.failure_counters`) and, per site, whether the kvs
holds its curve value. -/
structure EnvStep (σ : Type) where
  failures : Nat
  avail : σ → Bool

/-- Result of the per-cycle site sweep. -/
structure ScanResult (σ : Type) where
  acc : List σ
  reads : List σ
  batch : List σ

/-- The `for site in sites` sweep of one cycle (lines 517-535): sites
already accounted for are skipped; every other site costs one kvs read;
a site whose value is present joins `hc_data` (the batch) and
`accounted_for`. -/
def scanSites [DecidableEq σ] (avail : σ → Bool) :
    List σ → List σ → ScanResult σ
  | [], acc => ⟨acc, [], []⟩
  | s :: rest, acc =>
    if s ∈ acc then scanSites avail rest acc
    else if avail s then
      let r := scanSites avail rest (s :: acc)
      ⟨r.acc, s :: r.reads, s :: r.batch⟩
    else
      let r := scanSites avail rest acc
      ⟨r.acc, s :: r.reads, r.batch⟩

/-- Loop state: `accounted_for`, the current `pause`, the internal value
of `pause_generator`, and the batches serialized so far. -/
structure PollState (σ : Type) where
  accounted : List σ
  pause : ℚ
  gen : ℚ
  batches : List (List σ)
deriving DecidableEq

/-- Record of one `while` iteration: the failure count consulted first
(line 509), the pause slept (`none` when the iteration aborted before
sleeping), the sites read from the kvs this cycle, and the batch
serialized this cycle (empty when none was). -/
structure Cycle (σ : Type) where
  failures : Nat
  sleep : Option ℚ
  reads : List σ
  batch : List σ
deriving DecidableEq

/-- How a bounded run of the polling loop ended. -/
inductive Outcome where
  | done
  | failed (n : Nat)
  | fuelOut
deriving DecidableEq

/-- A bounded run of the polling loop: its per-iteration records, the
final loop state, and how it ended. -/
structure RunResult (σ : Type) where
  cycles : List (Cycle σ)
  final : PollState σ
  outcome : Outcome
deriving DecidableEq

/-- The polling loop (lines 508-545), driven by an environment giving each
iteration's failure counters and kvs contents, cut off after `fuel`
iterations (the source loop has no bound; every claim is about the
cycles a run actually performs).  Each iteration: exit when
`accounted_for == sites` (set comparison, line 508); consult the failure
counters and raise if any failure is recorded (509-511); sleep (515);
sweep the sites (517-535); then either escalate the pause through the
generator when nothing was found (536-538) or serialize the batch and
decay the pause (539-545). -/
def pollLoop [DecidableEq σ] (env : Nat → EnvStep σ) (sites : List σ) :
    Nat → Nat → PollState σ → RunResult σ
  | 0, _, st => ⟨[], st, .fuelOut⟩
  | fuel + 1, t, st =>
    if st.accounted.toFinset = sites.toFinset then ⟨[], st, .done⟩
    else
      let e := env t
      if 0 < e.failures then
        ⟨[⟨e.failures, none, [], []⟩], st, .failed e.failures⟩
      else
        let r := scanSites e.avail sites st.accounted
        if r.batch = [] then
          let res := pollLoop env sites fuel (t + 1)
            ⟨r.acc, escalate st.gen, escalate st.gen, st.batches⟩
          ⟨⟨e.failures, some st.pause, r.reads, []⟩ :: res.cycles,
            res.final, res.outcome⟩
        else
          let res := pollLoop env sites fuel (t + 1)
            ⟨r.acc, decay st.pause, st.gen, st.batches ++ [r.batch]⟩
          ⟨⟨e.failures, some st.pause, r.reads, r.batch⟩ :: res.cycles,
            res.final, res.outcome⟩

/-- Entry state of the loop of `serialize_hazard_curve`: nothing accounted
for, `pause = pgen.next() = min_pause`, generator value `min_pause`
(lines 502-506). -/
def initState (σ : Type) : PollState σ := ⟨[], minPause, minPause, []⟩

/-- The polling portion of `serialize_hazard_curve` (lines 502-547):
`sites = set(sites)` (modelled by deduplication) and then the loop. -/
def serialize_hazard_curve [DecidableEq σ] (env : Nat → EnvStep σ)
    (sites : List σ) (fuel : Nat) : RunResult σ :=
  pollLoop env sites.dedup fuel 0 (initState σ)

/-- The loop-state invariant of the pause bookkeeping: the pause is at
least `min_pause`, never above the generator's internal value, and the
generator's value is one that `pause_generator(min_pause)` yields. -/
def PauseInv (st : PollState σ) : Prop :=
  minPause ≤ st.pause ∧ st.pause ≤ st.gen ∧ ∃ m, st.gen = genVal m

/-- The loop-state invariant of serialization: the batches serialized so
far are duplicate-free and cover exactly the accounted-for sites. -/
def BatchInv [DecidableEq σ] (st : PollState σ) : Prop :=
  st.batches.flatten.Nodup
    ∧ st.batches.flatten.toFinset = st.accounted.toFinset

/-- Environment used to exercise the loop on a run with an escalation, a
decay, and a further escalation: site 0 becomes available at cycle 1 and
site 1 from cycle 3 on; no failures. -/
def cexEnv : Nat → EnvStep Nat := fun t =>
  ⟨0, fun s => (decide (t = 1) && decide (s = 0)) || (decide (3 ≤ t) && decide (s = 1))⟩

/-! ## Theorems -/

/-- Claim C1, counterexample: called on an empty item sequence,
`distribute` raises nothing (there is no empty-input check in the
source, and no `EmptyInputError` exists anywhere in it): in collect mode
the call returns the empty result list, in fire-and-continue mode it
proceeds to the `ath` as with any other input; in both modes the
submitted subtask list is empty. -/
theorem distribute_empty_counterexample :
    distribute ⟨fun n => TaskRes.ok n, false⟩ ([] : List Nat)
        (none : Option (Unit → Nat)) = ([], DistResult.collected [])
      ∧ distribute ⟨fun n => TaskRes.ok n, true⟩ ([] : List Nat)
        (some fun _ => (7 : Nat)) = ([], DistResult.athRes 7)
      ∧ (distribute ⟨fun n => TaskRes.ok n, false⟩ ([] : List Nat)
        (none : Option (Unit → Nat))).2.isRaised = false
      ∧ (distribute ⟨fun n => TaskRes.ok n, true⟩ ([] : List Nat)
        (some fun _ => (7 : Nat))).2.isRaised = false :=
  ⟨rfl, rfl, rfl, rfl⟩

/-- Claim C1, amended: for every task function and continuation,
`distribute` on an empty item sequence submits zero subtasks and raises
no error; in collect mode it returns the empty result list. -/
theorem distribute_empty_amended (tf : TaskFunc α β) (ath : Option (Unit → γ)) :
    (distribute tf ([] : List α) ath).1 = []
      ∧ (distribute tf ([] : List α) ath).2.isRaised = false
      ∧ (tf.ignoreResult = false →
          (distribute tf ([] : List α) ath).2 = DistResult.collected []) := by
  cases h : tf.ignoreResult <;> cases ath <;>
    simp [distribute, firstExn, h, DistResult.isRaised]

/-- Claim C1, amended, witness at a concrete collect-mode call. -/
theorem distribute_empty_amended_witness :
    (distribute ⟨fun n => TaskRes.ok n, false⟩ ([] : List Nat)
        (none : Option (Unit → Nat))).1 = []
      ∧ (distribute ⟨fun n => TaskRes.ok n, false⟩ ([] : List Nat)
        (none : Option (Unit → Nat))).2 = DistResult.collected [] := by
  have h := distribute_empty_amended
    (⟨fun n => TaskRes.ok n, false⟩ : TaskFunc Nat Nat) (none : Option (Unit → Nat))
  exact ⟨h.1, h.2.2 rfl⟩

/-- Claim C8: on a non-empty item sequence, in collect mode
(`ignore_result` false), `distribute` joins all subtasks and returns
their results in input order (result `i` is the task function applied to
item `i`); if any subtask result is an exception, the call raises the
first such exception and returns no partial results. -/
theorem distribute_collect_ordered (tf : TaskFunc α β) (data : List α)
    (ath : Option (Unit → γ)) (hmode : tf.ignoreResult = false)
    (hne : data ≠ []) :
    (firstExn (data.map tf.run) = none →
        distribute tf data ath = (data, DistResult.collected (data.map tf.run)))
      ∧ ∀ e, firstExn (data.map tf.run) = some e →
        distribute tf data ath = (data, DistResult.raised e) := by
  constructor
  · intro h
    simp [distribute, hmode, h]
  · intro e h
    simp [distribute, hmode, h]

/-- Claim C8, witness: a concrete all-ok call returns ordered results
and a concrete call with a failing subtask raises its exception. -/
theorem distribute_collect_ordered_witness :
    distribute ⟨fun n => TaskRes.ok (n + 1), false⟩ [3, 5]
        (none : Option (Unit → Nat))
      = ([3, 5], DistResult.collected [TaskRes.ok 4, TaskRes.ok 6])
      ∧ distribute ⟨fun n => if n = 5 then TaskRes.exn 9 else TaskRes.ok n, false⟩
        [3, 5] (none : Option (Unit → Nat)) = ([3, 5], DistResult.raised 9) := by
  constructor
  · exact (distribute_collect_ordered ⟨fun n => TaskRes.ok (n + 1), false⟩ [3, 5]
      (none : Option (Unit → Nat)) rfl (by decide)).1 rfl
  · exact (distribute_collect_ordered
      ⟨fun n => if n = 5 then TaskRes.exn 9 else TaskRes.ok n, false⟩ [3, 5]
      (none : Option (Unit → Nat)) rfl (by decide)).2 9 rfl

/-- Claim C2: evaluation of `do_curves` at a failing input.  With
`SOURCE_MODEL_LT_RANDOM_SEED = 1`, `GMPE_LT_RANDOM_SEED = 2`, one
realization, and the draw model `randbits seed i = seed` (every draw of
a stream equals its seed), the stored pair is `(1, 1)`: the
ground-motion-model seed is `1`, a draw of the source-model stream,
while every draw of the GMPE-seeded stream is `2` — the code passes
`source_model_generator.getrandbits(32)` to `store_gmpe_map` (line 221)
and never draws from `gmpe_generator`.  The spec-modelled behaviour
yields `(1, 2)`. -/
theorem do_curves_gmpe_draw_bug :
    do_curves (fun s _ => s) ⟨1, 2⟩ 1 = [(1, 1)]
      ∧ do_curvesSpec (fun s _ => s) ⟨1, 2⟩ 1 = [(1, 2)]
      ∧ ∀ i : Nat, (fun (s _ : Nat) => s) 2 i = 2 :=
  ⟨rfl, rfl, fun _ => rfl⟩

/-- The realization loop draws twice per realization from the stream it
is given and ignores the second generator: entry `r` is draws `k + 2r`
and `k + 2r + 1` of the first stream. -/
theorem do_curvesAux_eq (randbits : Nat → Nat → Nat) (gmg : RandomGen) :
    ∀ (n k s : Nat),
      do_curvesAux randbits ⟨s, k⟩ gmg n
        = (List.range n).map fun r =>
            (randbits s (k + 2 * r), randbits s (k + 2 * r + 1)) := by
  intro n
  induction n with
  | zero => intro k s; simp [do_curvesAux]
  | succ m ih =>
    intro k s
    rw [List.range_succ_eq_map]
    simp only [do_curvesAux, getrandbits, List.map_cons, List.map_map]
    refine congrArg₂ List.cons (by simp) ?_
    rw [ih (k + 1 + 1) s]
    refine List.map_congr_left fun r _ => ?_
    have h1 : k + 1 + 1 + 2 * r = k + 2 * (r + 1) := by omega
    have h2 : k + 1 + 1 + 2 * r + 1 = k + 2 * (r + 1) + 1 := by omega
    simp [Function.comp, h1, h2]

/-- The stored seed pairs of one `do_curves` call, in closed form: both
components of entry `r` are draws of the `SOURCE_MODEL_LT_RANDOM_SEED`
stream (draws `2r` and `2r + 1`). -/
theorem do_curves_eq (randbits : Nat → Nat → Nat) (ctxt : JobCtxt)
    (realizations : Nat) :
    do_curves randbits ctxt realizations
      = (List.range realizations).map fun r =>
          (randbits ctxt.smSeed (2 * r), randbits ctxt.smSeed (2 * r + 1)) := by
  have h := do_curvesAux_eq randbits (RandomGen.seeded ctxt.gmpeSeed)
    realizations 0 ctxt.smSeed
  simpa [do_curves, RandomGen.seeded] using h

/-- Claim C10: `do_curves` re-creates and reseeds both generators from
the job-level seeds on every call and `execute` invokes it once per
block, so the stored per-realization seed pairs are identical in any two
blocks of the same run, and entry `r` is a function of the job seeds and
`r` alone (namely draws `2r` and `2r + 1` of the
`SOURCE_MODEL_LT_RANDOM_SEED` stream). -/
theorem executeSeeds_block_independent (randbits : Nat → Nat → Nat)
    (ctxt : JobCtxt) (realizations : Nat) (sites : List σ) (blockSize i j : Nat)
    (blkI blkJ : List (Nat × Nat))
    (hi : (executeSeeds randbits ctxt realizations sites blockSize)[i]? = some blkI)
    (hj : (executeSeeds randbits ctxt realizations sites blockSize)[j]? = some blkJ) :
    blkI = blkJ
      ∧ ∀ r p, blkI[r]? = some p
          → p = (randbits ctxt.smSeed (2 * r), randbits ctxt.smSeed (2 * r + 1)) := by
  have hI : blkI = do_curves randbits ctxt realizations := by
    rw [executeSeeds, List.getElem?_map] at hi
    cases h : (pyRange sites.length blockSize)[i]? with
    | none => rw [h] at hi; simp at hi
    | some x => rw [h] at hi; simp at hi; exact hi.symm
  have hJ : blkJ = do_curves randbits ctxt realizations := by
    rw [executeSeeds, List.getElem?_map] at hj
    cases h : (pyRange sites.length blockSize)[j]? with
    | none => rw [h] at hj; simp at hj
    | some x => rw [h] at hj; simp at hj; exact hj.symm
  refine ⟨hI.trans hJ.symm, fun r p hp => ?_⟩
  rw [hI, do_curves_eq, List.getElem?_map] at hp
  cases h : (List.range realizations)[r]? with
  | none => rw [h] at hp; simp at hp
  | some x =>
    have hr : r < realizations := by
      rcases List.getElem?_eq_some_iff.mp h with ⟨hl, _⟩
      simpa using hl
    rw [List.getElem?_range hr] at hp
    simpa using hp.symm

/-- Claim C10, witness: a run with two blocks (two sites, block size 1),
one realization, seeds 0 and 5, draw model `randbits s i = s + i`. -/
theorem executeSeeds_block_independent_witness :
    ([((0 : Nat), (1 : Nat))] : List (Nat × Nat)) = [(0, 1)]
      ∧ ((0 : Nat), (1 : Nat))
          = ((fun (s i : Nat) => s + i) 0 (2 * 0),
             (fun (s i : Nat) => s + i) 0 (2 * 0 + 1)) := by
  have h := executeSeeds_block_independent (fun s i => s + i) ⟨0, 5⟩ 1
    ([0, 1] : List Nat) 1 0 1 [(0, 1)] [(0, 1)] (by decide) (by decide)
  exact ⟨h.1, by simpa using h.2 0 (0, 1) rfl⟩

/-- Claim C6: `release_data_from_kvs` deletes exactly the keys of the
per-realization curves (every realization below `realizations`, every
site), the mean curves (every site), the quantile curves (every listed
quantile, every site), the mean maps (every listed PoE, every site) and
the quantile maps (every PoE-quantile pair, every site); and deleting
them from any cache leaves each of them absent. -/
theorem release_data_from_kvs_exact [DecidableEq σ] (job : Nat) (sites : List σ)
    (realizations : Nat) (quantiles poes : List ℚ) (k : KvsKey σ) :
    (k ∈ release_data_from_kvs job sites realizations quantiles poes
        ↔ (∃ r, r < realizations ∧ ∃ s ∈ sites, k = KvsKey.curve job r s)
          ∨ (∃ s ∈ sites, k = KvsKey.meanCurve job s)
          ∨ (∃ q ∈ quantiles, ∃ s ∈ sites, k = KvsKey.quantileCurve job q s)
          ∨ (∃ poe ∈ poes, ∃ s ∈ sites, k = KvsKey.meanMap job poe s)
          ∨ (∃ poe ∈ poes, ∃ q ∈ quantiles, ∃ s ∈ sites,
              k = KvsKey.quantileMap job poe q s))
      ∧ ∀ cache : KvsKey σ → Option V,
          k ∈ release_data_from_kvs job sites realizations quantiles poes
            → deleteKeys cache (release_data_from_kvs job sites realizations quantiles poes) k
                = none := by
  refine ⟨?_, fun cache hk => by simp [deleteKeys, hk]⟩
  simp only [release_data_from_kvs, List.mem_append, List.mem_flatten, List.mem_map,
    List.mem_range]
  aesop

/-- Claim C6, witness: the mean-curve key of a concrete job is among the
purged keys and absent after deletion. -/
theorem release_data_from_kvs_exact_witness :
    deleteKeys (fun _ => some (0 : Nat)) (release_data_from_kvs 1 [7] 1 [] [])
        (KvsKey.meanCurve 1 (7 : Nat)) = none :=
  (release_data_from_kvs_exact 1 [7] 1 [] [] (KvsKey.meanCurve 1 7)).2
    (fun _ => some 0) (by decide)

/-- Python `range(0, n, B)` for positive `B` and `n`: the first start is 0 and
the remaining starts are those of the rest of the list, shifted. -/
theorem pyRange_pos (B n : Nat) (hB : 0 < B) (hn : 0 < n) :
    pyRange n B = 0 :: (pyRange (n - B) B).map (· + B) := by
  have hk : (n + B - 1) / B = (n - B + B - 1) / B + 1 := by
    rcases Nat.lt_or_ge B n with h | h
    · have h1 : n + B - 1 = (n - B + B - 1) + B := by omega
      rw [h1, Nat.add_div_right _ hB]
    · have h1 : n - B + B - 1 = B - 1 := by omega
      have h2 : n + B - 1 = (n - 1) + B := by omega
      rw [h1, h2, Nat.add_div_right _ hB, Nat.div_eq_of_lt (by omega),
        Nat.div_eq_of_lt (by omega)]
  rw [pyRange, pyRange, hk, List.range_succ_eq_map]
  simp only [List.map_cons, Nat.zero_mul, List.map_map]
  refine congrArg₂ List.cons rfl ?_
  refine List.map_congr_left fun i _ => ?_
  simp [Nat.succ_mul]

/-- The slices `sites[start:start + B]` taken at the starts of
`range(0, len(sites), B)` concatenate back to the full site list. -/
theorem slices_flatten (B : Nat) (hB : 0 < B) :
    ∀ (n : Nat) (l : List σ), l.length ≤ n
      → ((pyRange l.length B).map fun start => (l.drop start).take B).flatten = l := by
  intro n
  induction n with
  | zero =>
    intro l hl
    have h : l = [] := List.eq_nil_of_length_eq_zero (Nat.le_zero.mp hl)
    subst h
    simp [pyRange]
  | succ m ih =>
    intro l hl
    cases l with
    | nil => simp [pyRange]
    | cons a as =>
      rw [pyRange_pos B _ hB (by simp)]
      simp only [List.map_cons, List.map_map, List.flatten_cons, List.drop_zero]
      have hrw : (a :: as).length - B = ((a :: as).drop B).length := by simp
      have hmap : ((pyRange ((a :: as).length - B) B).map (· + B)).map
            (fun start => ((a :: as).drop start).take B)
          = (pyRange (((a :: as).drop B).length) B).map
            (fun start => (((a :: as).drop B).drop start).take B) := by
        rw [hrw, List.map_map]
        refine List.map_congr_left fun s _ => ?_
        simp [List.drop_drop, Nat.add_comm]
      rw [List.map_map] at hmap
      rw [hmap, ih ((a :: as).drop B)
        (by rw [List.length_drop]; simp only [List.length_cons] at hl ⊢; omega)]
      exact List.take_append_drop B (a :: as)

/-- When no phase raises, one block's run is the four phases in order. -/
theorem runPhases_noRaise (start : Nat) (data : List σ) :
    ∀ ps, runPhases (fun _ _ => false) start data ps
      = (ps.map fun p => ⟨start, p, data⟩, true) := by
  intro ps
  induction ps with
  | nil => simp [runPhases]
  | cons p rest ih => simp [runPhases, ih]

/-- When no phase raises, the block loop is the per-block phase lists in
start order, concatenated. -/
theorem executeLoop_noRaise (sites : List σ) (blockSize : Nat) :
    ∀ starts, executeLoop (fun _ _ => false) sites blockSize starts
      = ((starts.map fun start =>
          phaseOrder.map fun p => ⟨start, p, (sites.drop start).take blockSize⟩).flatten,
        true) := by
  intro starts
  induction starts with
  | nil => simp [executeLoop]
  | cons a more ih => simp [executeLoop, runPhases_noRaise, ih]

/-- A purge event in a block's phase run means none of that block's
computation phases raised. -/
theorem runPhases_purge_mem (raises : Nat → Phase → Bool) (start : Nat)
    (data : List σ) (s : Nat) (b : List σ)
    (h : (⟨s, Phase.purge, b⟩ : BlockEvent σ) ∈ (runPhases raises start data phaseOrder).1) :
    raises s Phase.curves = false ∧ raises s Phase.means = false
      ∧ raises s Phase.quantiles = false := by
  simp only [phaseOrder, runPhases] at h
  split_ifs at h <;> simp_all

/-- A purge event anywhere in the block loop's trace means none of that
block's computation phases raised. -/
theorem executeLoop_purge_mem (raises : Nat → Phase → Bool) (sites : List σ)
    (blockSize : Nat) :
    ∀ starts (s : Nat) (b : List σ),
      (⟨s, Phase.purge, b⟩ : BlockEvent σ) ∈ (executeLoop raises sites blockSize starts).1
      → raises s Phase.curves = false ∧ raises s Phase.means = false
        ∧ raises s Phase.quantiles = false := by
  intro starts
  induction starts with
  | nil => intro s b h; simp [executeLoop] at h
  | cons a more ih =>
    intro s b h
    simp only [executeLoop] at h
    split at h
    · rcases List.mem_append.mp h with h1 | h2
      · exact runPhases_purge_mem raises a _ s b h1
      · exact ih s b h2
    · exact runPhases_purge_mem raises a _ s b h

/-- Claim C7: `execute` partitions the site list into the contiguous
slices `sites[start:start + block_size)` in list order (their
concatenation is the site list, the final slice being shorter when the
length is not a multiple); when nothing raises, the trace is exactly the
per-block phase runs — curves, means, quantiles, purge — block after
block, the shorter final block going through the identical path; and for
any raise behaviour, a block's purge is reached only if none of its
computation phases raised. -/
theorem execute_block_pipeline (sites : List σ) (blockSize : Nat)
    (hB : 0 < blockSize) :
    ((pyRange sites.length blockSize).map fun start =>
        (sites.drop start).take blockSize).flatten = sites
      ∧ execute (fun _ _ => false) sites blockSize
          = (((pyRange sites.length blockSize).map fun start =>
              phaseOrder.map fun p => ⟨start, p, (sites.drop start).take blockSize⟩).flatten,
            true)
      ∧ ∀ (raises : Nat → Phase → Bool) (start : Nat) (b : List σ),
          (⟨start, Phase.purge, b⟩ : BlockEvent σ) ∈ (execute raises sites blockSize).1
          → raises start Phase.curves = false ∧ raises start Phase.means = false
            ∧ raises start Phase.quantiles = false :=
  ⟨slices_flatten blockSize hB sites.length sites le_rfl,
    executeLoop_noRaise sites blockSize (pyRange sites.length blockSize),
    fun raises start b h =>
      executeLoop_purge_mem raises sites blockSize (pyRange sites.length blockSize) start b h⟩

/-- Claim C7, witness: three sites with block size two — two blocks, the
final one shorter, slices concatenating to the site list, the no-raise
trace in phase order, and the purge-reachability instance for the first
block. -/
theorem execute_block_pipeline_witness :
    (((pyRange 3 2).map fun start => (([0, 1, 2] : List Nat).drop start).take 2).flatten
        = [0, 1, 2])
      ∧ execute (fun _ _ => false) ([0, 1, 2] : List Nat) 2
          = (((pyRange 3 2).map fun start =>
              phaseOrder.map fun p => ⟨start, p, (([0, 1, 2] : List Nat).drop start).take 2⟩).flatten,
            true)
      ∧ ((fun (_ : Nat) (_ : Phase) => false) 0 Phase.curves = false
          ∧ (fun (_ : Nat) (_ : Phase) => false) 0 Phase.means = false
          ∧ (fun (_ : Nat) (_ : Phase) => false) 0 Phase.quantiles = false) := by
  have h := execute_block_pipeline ([0, 1, 2] : List Nat) 2 (by decide)
  exact ⟨h.1, h.2.1, h.2.2 (fun _ _ => false) 0 [0, 1] (by decide)⟩

/-- The sweep's accounted-for list is, up to order, the found batch on
top of the previous accounted-for list. -/
theorem scanSites_acc_perm [DecidableEq σ] (avail : σ → Bool) :
    ∀ l acc : List σ,
      List.Perm (scanSites avail l acc).acc ((scanSites avail l acc).batch ++ acc) := by
  intro l
  induction l with
  | nil => intro acc; simp [scanSites]
  | cons s rest ih =>
    intro acc
    by_cases hs : s ∈ acc
    · simpa [scanSites, hs] using ih acc
    · cases ha : avail s
      · simpa [scanSites, hs, ha] using ih acc
      · simp only [scanSites, if_neg hs, ha, if_true, List.cons_append]
        exact (ih (s :: acc)).trans List.perm_middle

/-- No site of the sweep's batch was accounted for before the sweep. -/
theorem scanSites_batch_fresh [DecidableEq σ] (avail : σ → Bool) :
    ∀ (l acc : List σ) (x : σ), x ∈ (scanSites avail l acc).batch → x ∉ acc := by
  intro l
  induction l with
  | nil => intro acc x hx; simp [scanSites] at hx
  | cons s rest ih =>
    intro acc x hx
    by_cases hs : s ∈ acc
    · exact ih acc x (by simpa [scanSites, hs] using hx)
    · cases ha : avail s
      · exact ih acc x (by simpa [scanSites, hs, ha] using hx)
      · simp only [scanSites, if_neg hs, ha, if_true, List.mem_cons] at hx
        rcases hx with rfl | hx
        · exact hs
        · intro hxa
          exact ih (s :: acc) x hx (List.mem_cons_of_mem _ hxa)

/-- The sweep's batch holds no duplicates. -/
theorem scanSites_batch_nodup [DecidableEq σ] (avail : σ → Bool) :
    ∀ l acc : List σ, (scanSites avail l acc).batch.Nodup := by
  intro l
  induction l with
  | nil => intro acc; simp [scanSites]
  | cons s rest ih =>
    intro acc
    by_cases hs : s ∈ acc
    · simpa [scanSites, hs] using ih acc
    · cases ha : avail s
      · simpa [scanSites, hs, ha] using ih acc
      · simp only [scanSites, if_neg hs, ha, if_true, List.nodup_cons]
        refine ⟨fun hmem => ?_, ih (s :: acc)⟩
        exact scanSites_batch_fresh avail rest (s :: acc) s hmem (List.mem_cons_self s acc)

/-- The batch invariant survives every iteration of the polling loop. -/
theorem pollLoop_final_batchInv [DecidableEq σ] (env : Nat → EnvStep σ)
    (sites : List σ) :
    ∀ (fuel t : Nat) (st : PollState σ), BatchInv st
      → BatchInv (pollLoop env sites fuel t st).final := by
  intro fuel
  induction fuel with
  | zero => intro t st h; simpa [pollLoop] using h
  | succ m ih =>
    intro t st h
    rw [pollLoop]
    by_cases hg : st.accounted.toFinset = sites.toFinset
    · simpa [hg] using h
    · by_cases hf : 0 < (env t).failures
      · simpa [hg, hf] using h
      · by_cases hb : (scanSites (env t).avail sites st.accounted).batch = []
        · simp only [if_neg hg, if_neg hf, hb, if_true]
          apply ih
          refine ⟨h.1, ?_⟩
          have hperm : List.Perm (scanSites (env t).avail sites st.accounted).acc st.accounted := by
            simpa [hb] using scanSites_acc_perm (env t).avail sites st.accounted
          show st.batches.flatten.toFinset
            = (scanSites (env t).avail sites st.accounted).acc.toFinset
          rw [List.toFinset_eq_of_perm _ _ hperm]
          exact h.2
        · simp only [if_neg hg, if_neg hf, hb, if_false]
          apply ih
          constructor
          · simp only [List.flatten_append, List.flatten_cons, List.flatten_nil,
              List.append_nil]
            rw [List.nodup_append]
            refine ⟨h.1, scanSites_batch_nodup (env t).avail sites st.accounted, ?_⟩
            intro x hx hx2
            have hacc : x ∈ st.accounted := by
              have := h.2 ▸ List.mem_toFinset.mpr hx
              exact List.mem_toFinset.mp this
            exact scanSites_batch_fresh (env t).avail sites st.accounted x hx2 hacc
          · have hperm := scanSites_acc_perm (env t).avail sites st.accounted
            rw [List.toFinset_eq_of_perm _ _ hperm]
            simp only [List.flatten_append, List.flatten_cons, List.flatten_nil,
              List.append_nil, List.toFinset_append]
            rw [h.2]
            exact Finset.union_comm _ _

/-- When a bounded run finishes, the exit guard held: the accounted-for
set equals the expected site set. -/
theorem pollLoop_done_guard [DecidableEq σ] (env : Nat → EnvStep σ)
    (sites : List σ) :
    ∀ (fuel t : Nat) (st : PollState σ),
      (pollLoop env sites fuel t st).outcome = Outcome.done
      → (pollLoop env sites fuel t st).final.accounted.toFinset = sites.toFinset := by
  intro fuel
  induction fuel with
  | zero => intro t st h; simp [pollLoop] at h
  | succ m ih =>
    intro t st h
    rw [pollLoop] at h ⊢
    by_cases hg : st.accounted.toFinset = sites.toFinset
    · simpa [hg] using hg
    · by_cases hf : 0 < (env t).failures
      · simp [hg, hf] at h
      · by_cases hb : (scanSites (env t).avail sites st.accounted).batch = []
        · simp only [if_neg hg, if_neg hf, hb, if_true] at h ⊢
          exact ih (t + 1) _ h
        · simp only [if_neg hg, if_neg hf, hb, if_false] at h ⊢
          exact ih (t + 1) _ h

/-- Claim C5: over one invocation, the serialized batches never contain a
site twice (so they are pairwise disjoint and no site is serialized in
more than one batch), and when the loop terminates their union is
exactly the expected site set, each site appearing once. -/
theorem serialize_batches_partition [DecidableEq σ] (env : Nat → EnvStep σ)
    (sites : List σ) (fuel : Nat) :
    (serialize_hazard_curve env sites fuel).final.batches.flatten.Nodup
      ∧ ((serialize_hazard_curve env sites fuel).outcome = Outcome.done
          → (serialize_hazard_curve env sites fuel).final.batches.flatten.toFinset
              = sites.toFinset) := by
  have hinv : BatchInv
      (pollLoop env sites.dedup fuel 0 (initState σ)).final :=
    pollLoop_final_batchInv env sites.dedup fuel 0 (initState σ)
      (by simp [BatchInv, initState])
  refine ⟨hinv.1, fun hdone => ?_⟩
  have hguard := pollLoop_done_guard env sites.dedup fuel 0 (initState σ) hdone
  rw [serialize_hazard_curve] at *
  rw [hinv.2, hguard]
  exact List.toFinset.ext fun x => List.mem_dedup

/-- Claim C5, witness: two sites, everything available at once — the one
serialized batch covers both sites exactly. -/
theorem serialize_batches_partition_witness :
    (serialize_hazard_curve (fun _ => ⟨0, fun _ => true⟩) ([0, 1] : List Nat)
        2).final.batches.flatten.Nodup
      ∧ (serialize_hazard_curve (fun _ => ⟨0, fun _ => true⟩) ([0, 1] : List Nat)
        2).final.batches.flatten.toFinset = ([0, 1] : List Nat).toFinset := by
  have h := serialize_batches_partition (fun _ => ⟨0, fun _ => true⟩)
    ([0, 1] : List Nat) 2
  exact ⟨h.1, h.2 (by decide)⟩

/-- Claim C3: in any bounded run, a cycle that sees a recorded failure
performs no kvs read, is the last cycle of the run (no later cycle, so
no later read either), and ends the run with the fatal failure
outcome. -/
theorem pollLoop_failure_aborts [DecidableEq σ] (env : Nat → EnvStep σ)
    (sites : List σ) :
    ∀ (fuel t : Nat) (st : PollState σ) (pre : List (Cycle σ)) (c : Cycle σ)
      (post : List (Cycle σ)),
      (pollLoop env sites fuel t st).cycles = pre ++ c :: post
      → 0 < c.failures
      → c.reads = [] ∧ post = []
        ∧ (pollLoop env sites fuel t st).outcome = Outcome.failed c.failures := by
  intro fuel
  induction fuel with
  | zero => intro t st pre c post h hc; simp [pollLoop] at h
  | succ m ih =>
    intro t st pre c post h hc
    rw [pollLoop] at h ⊢
    by_cases hg : st.accounted.toFinset = sites.toFinset
    · simp [hg] at h
    · by_cases hf : 0 < (env t).failures
      · simp only [if_neg hg, if_pos hf] at h ⊢
        cases pre with
        | nil =>
          simp only [List.nil_append, List.cons.injEq] at h
          rcases h with ⟨rfl, hpost⟩
          exact ⟨rfl, hpost.symm, rfl⟩
        | cons y ys => simp [List.cons.injEq] at h
      · by_cases hb : (scanSites (env t).avail sites st.accounted).batch = []
        · simp only [if_neg hg, if_neg hf, hb, if_true] at h ⊢
          cases pre with
          | nil =>
            simp only [List.nil_append, List.cons.injEq] at h
            rcases h with ⟨rfl, _⟩
            simp at hc
            omega
          | cons y ys =>
            simp only [List.cons_append, List.cons.injEq] at h
            exact ih (t + 1) _ ys c post h.2 hc
        · simp only [if_neg hg, if_neg hf, hb, if_false] at h ⊢
          cases pre with
          | nil =>
            simp only [List.nil_append, List.cons.injEq] at h
            rcases h with ⟨rfl, _⟩
            simp at hc
            omega
          | cons y ys =>
            simp only [List.cons_append, List.cons.injEq] at h
            exact ih (t + 1) _ ys c post h.2 hc

/-- Claim C3, stated on `serialize_hazard_curve`: the failure counters
are consulted at the start of every cycle, and a cycle that sees a
recorded failure raises the fatal error without any further kvs read in
that cycle or in any later one. -/
theorem serialize_failure_aborts [DecidableEq σ] (env : Nat → EnvStep σ)
    (sites : List σ) (fuel : Nat) (pre : List (Cycle σ)) (c : Cycle σ)
    (post : List (Cycle σ))
    (h : (serialize_hazard_curve env sites fuel).cycles = pre ++ c :: post)
    (hc : 0 < c.failures) :
    c.reads = [] ∧ post = []
      ∧ (serialize_hazard_curve env sites fuel).outcome = Outcome.failed c.failures :=
  pollLoop_failure_aborts env sites.dedup fuel 0 (initState σ) pre c post h hc

/-- Claim C3, witness: a failure recorded before the first cycle aborts
the run at once. -/
theorem serialize_failure_aborts_witness :
    (⟨3, none, [], []⟩ : Cycle Nat).reads = [] ∧ ([] : List (Cycle Nat)) = []
      ∧ (serialize_hazard_curve (fun _ => ⟨3, fun _ => false⟩) ([5] : List Nat)
          4).outcome = Outcome.failed (⟨3, none, [], []⟩ : Cycle Nat).failures :=
  serialize_failure_aborts (fun _ => ⟨3, fun _ => false⟩) [5] 4 []
    ⟨3, none, [], []⟩ [] (by decide) (by decide)

/-- The generator never shrinks its value. -/
theorem escalate_ge (v : ℚ) (hv : 0 ≤ v) : v ≤ escalate v := by
  unfold escalate
  split_ifs with h
  · linarith
  · exact le_rfl

/-- Every yield of `pause_generator(min_pause)` is at least `min_pause`. -/
theorem genVal_ge : ∀ k, minPause ≤ genVal k := by
  intro k
  induction k with
  | zero => simp [genVal]
  | succ n ih =>
    have h0 : (0 : ℚ) ≤ genVal n := le_trans (by norm_num [minPause]) ih
    exact le_trans ih (escalate_ge (genVal n) h0)

/-- Closed form of the generator's yields: doubling from `min_pause` until
the exponent reaches 9, where the value 51.2 is at least 45 and growth
stops. -/
theorem genVal_closed : ∀ k, genVal k = minPause * 2 ^ (min k 9) := by
  intro k
  induction k with
  | zero => simp [genVal]
  | succ n ih =>
    rcases le_or_lt n 8 with hn | hn
    · have hmin : min n 9 = n := by omega
      have hlt : minPause * 2 ^ n < 45 := by
        have h2 : (2 : ℚ) ^ n ≤ 2 ^ 8 := by
          apply pow_le_pow_right₀ (by norm_num) hn
        have := mul_le_mul_of_nonneg_left h2 (by norm_num [minPause] : (0 : ℚ) ≤ minPause)
        calc minPause * 2 ^ n ≤ minPause * 2 ^ 8 := this
          _ < 45 := by norm_num [minPause]
      have hmin2 : min (n + 1) 9 = n + 1 := by omega
      show escalate (genVal n) = minPause * 2 ^ min (n + 1) 9
      rw [ih, hmin, escalate, if_pos hlt, hmin2]
      ring
    · have hmin : min n 9 = 9 := by omega
      have hge : ¬minPause * 2 ^ 9 < 45 := by norm_num [minPause]
      have hmin2 : min (n + 1) 9 = 9 := by omega
      show escalate (genVal n) = minPause * 2 ^ min (n + 1) 9
      rw [ih, hmin, escalate, if_neg hge, hmin2]

/-- The generator's yields in the form the spec names them:
`min(0.1 * 2^k, 51.2)`. -/
theorem genVal_min : ∀ k, genVal k = min (minPause * 2 ^ k) (51.2 : ℚ) := by
  intro k
  rw [genVal_closed]
  rcases le_or_lt k 9 with hk | hk
  · have hmin : min k 9 = k := by omega
    rw [hmin]
    have h2 : (2 : ℚ) ^ k ≤ 2 ^ 9 := pow_le_pow_right₀ (by norm_num) hk
    have : minPause * 2 ^ k ≤ 51.2 := by
      have := mul_le_mul_of_nonneg_left h2 (by norm_num [minPause] : (0 : ℚ) ≤ minPause)
      calc minPause * 2 ^ k ≤ minPause * 2 ^ 9 := this
        _ ≤ 51.2 := by norm_num [minPause]
    exact (min_eq_left this).symm
  · have hmin : min k 9 = 9 := by omega
    rw [hmin]
    have h2 : (2 : ℚ) ^ 10 ≤ 2 ^ k := pow_le_pow_right₀ (by norm_num) hk
    have : (51.2 : ℚ) ≤ minPause * 2 ^ k := by
      have := mul_le_mul_of_nonneg_left h2 (by norm_num [minPause] : (0 : ℚ) ≤ minPause)
      calc (51.2 : ℚ) ≤ minPause * 2 ^ 10 := by norm_num [minPause]
        _ ≤ minPause * 2 ^ k := this
    rw [min_eq_right this]
    norm_num [minPause]

/-- The generator's yields never exceed 51.2. -/
theorem genVal_le (k : Nat) : genVal k ≤ 51.2 := by
  rw [genVal_min]
  exact min_le_right _ _

/-- The decayed pause never drops below `min_pause`. -/
theorem decay_ge (p : ℚ) : minPause ≤ decay p := by
  simp only [decay]
  split_ifs with h
  · exact le_rfl
  · exact le_of_not_lt h

/-- Decaying a pause that is at least `min_pause` never raises it. -/
theorem decay_le (p : ℚ) (hp : minPause ≤ p) : decay p ≤ p := by
  simp only [decay]
  split_ifs with h
  · exact hp
  · rw [minPause] at hp
    norm_num at hp ⊢
    linarith

/-- Decaying a pause strictly above `min_pause` strictly lowers it. -/
theorem decay_lt (p : ℚ) (hp : minPause < p) : decay p < p := by
  simp only [decay]
  split_ifs with h
  · exact hp
  · rw [minPause] at hp
    norm_num at hp ⊢
    linarith

/-- The pause invariant holds on entry to the loop. -/
theorem pauseInv_init : PauseInv (initState σ) :=
  ⟨le_rfl, le_rfl, 0, rfl⟩

/-- The pause invariant survives an escalation step. -/
theorem pauseInv_escalate (st : PollState σ) (acc : List σ)
    (bs : List (List σ)) (h : PauseInv st) :
    PauseInv ⟨acc, escalate st.gen, escalate st.gen, bs⟩ := by
  obtain ⟨h1, h2, m, hm⟩ := h
  have hgen : escalate st.gen = genVal (m + 1) := by rw [hm]; rfl
  exact ⟨hgen ▸ genVal_ge (m + 1), le_rfl, m + 1, hgen⟩

/-- The pause invariant survives a decay step. -/
theorem pauseInv_decay (st : PollState σ) (acc : List σ)
    (bs : List (List σ)) (h : PauseInv st) :
    PauseInv ⟨acc, decay st.pause, st.gen, bs⟩ :=
  ⟨decay_ge _, le_trans (decay_le _ h.1) h.2.1, h.2.2⟩

/-- The first cycle of a bounded run sleeps the entry pause. -/
theorem pollLoop_head_sleep [DecidableEq σ] (env : Nat → EnvStep σ)
    (sites : List σ) (fuel t : Nat) (st : PollState σ) (c : Cycle σ) (p : ℚ)
    (h : (pollLoop env sites fuel t st).cycles[0]? = some c)
    (hp : c.sleep = some p) : p = st.pause := by
  cases fuel with
  | zero => simp [pollLoop] at h
  | succ m =>
    rw [pollLoop] at h
    by_cases hg : st.accounted.toFinset = sites.toFinset
    · simp [hg] at h
    · by_cases hf : 0 < (env t).failures
      · simp only [if_neg hg, if_pos hf, List.getElem?_cons_zero,
          Option.some.injEq] at h
        rw [← h] at hp
        simp at hp
      · by_cases hb : (scanSites (env t).avail sites st.accounted).batch = []
        · simp only [if_neg hg, if_neg hf, hb, if_true, List.getElem?_cons_zero,
            Option.some.injEq] at h
          rw [← h] at hp
          simpa using hp.symm
        · simp only [if_neg hg, if_neg hf, hb, if_false, List.getElem?_cons_zero,
            Option.some.injEq] at h
          rw [← h] at hp
          simpa using hp.symm

/-- Under the pause invariant, every pause slept in a bounded run is at
most 90. -/
theorem pollLoop_pause_bound [DecidableEq σ] (env : Nat → EnvStep σ)
    (sites : List σ) :
    ∀ (fuel t : Nat) (st : PollState σ), PauseInv st
      → ∀ c ∈ (pollLoop env sites fuel t st).cycles, ∀ p, c.sleep = some p
      → p ≤ 90 := by
  intro fuel
  induction fuel with
  | zero => intro t st _ c hc; simp [pollLoop] at hc
  | succ m ih =>
    intro t st hinv c hc p hp
    have hbound : st.pause ≤ 90 := by
      obtain ⟨_, h2, mm, hm⟩ := hinv
      have := genVal_le mm
      rw [← hm] at this
      calc st.pause ≤ st.gen := h2
        _ ≤ 51.2 := this
        _ ≤ 90 := by norm_num
    rw [pollLoop] at hc
    by_cases hg : st.accounted.toFinset = sites.toFinset
    · simp [hg] at hc
    · by_cases hf : 0 < (env t).failures
      · simp only [if_neg hg, if_pos hf, List.mem_singleton] at hc
        rw [hc] at hp
        simp at hp
      · by_cases hb : (scanSites (env t).avail sites st.accounted).batch = []
        · simp only [if_neg hg, if_neg hf, hb, if_true, List.mem_cons] at hc
          rcases hc with rfl | hc
          · simp at hp
            rw [← hp]
            exact hbound
          · exact ih (t + 1) _ (pauseInv_escalate st _ _ hinv) c hc p hp
        · simp only [if_neg hg, if_neg hf, hb, if_false, List.mem_cons] at hc
          rcases hc with rfl | hc
          · simp at hp
            rw [← hp]
            exact hbound
          · exact ih (t + 1) _ (pauseInv_decay st _ _ hinv) c hc p hp

/-- Under the pause invariant, consecutive cycles of a bounded run relate
their pauses as the loop body dictates: after a cycle that found nothing
the pause never shrinks, and after a cycle that found results the pause
is the decayed one, strictly smaller whenever it was above
`min_pause`. -/
theorem pollLoop_pause_adjacent [DecidableEq σ] (env : Nat → EnvStep σ)
    (sites : List σ) :
    ∀ (fuel t : Nat) (st : PollState σ), PauseInv st
      → ∀ (i : Nat) (c c' : Cycle σ) (p p' : ℚ),
        (pollLoop env sites fuel t st).cycles[i]? = some c
        → (pollLoop env sites fuel t st).cycles[i + 1]? = some c'
        → c.sleep = some p → c'.sleep = some p'
        → (c.batch = [] → p ≤ p')
          ∧ (c.batch ≠ [] → p' = decay p ∧ (minPause < p → p' < p)) := by
  intro fuel
  induction fuel with
  | zero => intro t st _ i c c' p p' hi; simp [pollLoop] at hi
  | succ m ih =>
    intro t st hinv i c c' p p' hi hi' hp hp'
    rw [pollLoop] at hi hi'
    by_cases hg : st.accounted.toFinset = sites.toFinset
    · simp [hg] at hi
    · by_cases hf : 0 < (env t).failures
      · simp only [if_neg hg, if_pos hf] at hi'
        rw [List.getElem?_cons_succ] at hi'
        simp at hi'
      · by_cases hb : (scanSites (env t).avail sites st.accounted).batch = []
        · simp only [if_neg hg, if_neg hf, hb, if_true] at hi hi'
          cases i with
          | zero =>
            rw [List.getElem?_cons_zero, Option.some.injEq] at hi
            rw [List.getElem?_cons_succ] at hi'
            have hp0 : p = st.pause := by
              rw [← hi] at hp
              simpa using hp.symm
            have hp1 : p' = escalate st.gen :=
              pollLoop_head_sleep env sites m (t + 1) _ c' p' hi' hp'
            constructor
            · intro _
              rw [hp0, hp1]
              obtain ⟨h1, h2, mm, hm⟩ := hinv
              have h0 : (0 : ℚ) ≤ st.gen :=
                le_trans (le_trans (by norm_num [minPause]) h1) h2
              exact le_trans h2 (escalate_ge st.gen h0)
            · intro habs
              rw [← hi] at habs
              simp at habs
          | succ j =>
            rw [List.getElem?_cons_succ] at hi hi'
            exact ih (t + 1) _ (pauseInv_escalate st _ _ hinv) j c c' p p' hi hi' hp hp'
        · simp only [if_neg hg, if_neg hf, hb, if_false] at hi hi'
          cases i with
          | zero =>
            rw [List.getElem?_cons_zero, Option.some.injEq] at hi
            rw [List.getElem?_cons_succ] at hi'
            have hp0 : p = st.pause := by
              rw [← hi] at hp
              simpa using hp.symm
            have hp1 : p' = decay st.pause :=
              pollLoop_head_sleep env sites m (t + 1) _ c' p' hi' hp'
            constructor
            · intro habs
              rw [← hi] at habs
              simp at habs
              exact absurd habs hb
            · intro _
              refine ⟨by rw [hp1, hp0], fun hlt => ?_⟩
              rw [hp1, hp0]
              exact decay_lt st.pause (hp0 ▸ hlt)
          | succ j =>
            rw [List.getElem?_cons_succ] at hi hi'
            exact ih (t + 1) _ (pauseInv_decay st _ _ hinv) j c c' p p' hi hi' hp hp'

/-- The pause assigned by an escalation cycle is the generator's next
yield, a function only of how many escalation cycles have happened: if
the loop entered with generator value `genVal m`, the sleep following
the escalation at index `i` is `genVal (m + e)` where `e` counts the
empty-batch cycles up to and including `i` — the decays on intervening
completion cycles play no part. -/
theorem pollLoop_escalation_exact [DecidableEq σ] (env : Nat → EnvStep σ)
    (sites : List σ) :
    ∀ (fuel t : Nat) (st : PollState σ) (m : Nat), st.gen = genVal m
      → ∀ (i : Nat) (c c' : Cycle σ) (p' : ℚ),
        (pollLoop env sites fuel t st).cycles[i]? = some c
        → c.failures = 0 → c.batch = []
        → (pollLoop env sites fuel t st).cycles[i + 1]? = some c'
        → c'.sleep = some p'
        → p' = genVal (m + ((pollLoop env sites fuel t st).cycles.take (i + 1)).countP
            (fun x => x.batch.isEmpty)) := by
  intro fuel
  induction fuel with
  | zero => intro t st m hm i c c' p' hi; simp [pollLoop] at hi
  | succ f ih =>
    intro t st m hm i c c' p' hi hc0 hcb hi' hp'
    rw [pollLoop] at hi hi' ⊢
    by_cases hg : st.accounted.toFinset = sites.toFinset
    · simp [hg] at hi
    · by_cases hf : 0 < (env t).failures
      · simp only [if_neg hg, if_pos hf] at hi'
        rw [List.getElem?_cons_succ] at hi'
        simp at hi'
      · by_cases hb : (scanSites (env t).avail sites st.accounted).batch = []
        · simp only [if_neg hg, if_neg hf, hb, if_true] at hi hi' ⊢
          cases i with
          | zero =>
            rw [List.getElem?_cons_succ] at hi'
            have hp1 : p' = escalate st.gen :=
              pollLoop_head_sleep env sites f (t + 1) _ c' p' hi' hp'
            have hcount : (List.take 1
                (({ failures := (env t).failures, sleep := some st.pause,
                    reads := (scanSites (env t).avail sites st.accounted).reads,
                    batch := [] } : Cycle σ)
                  :: (pollLoop env sites f (t + 1)
                    ⟨(scanSites (env t).avail sites st.accounted).acc,
                      escalate st.gen, escalate st.gen, st.batches⟩).cycles)).countP
                (fun x => x.batch.isEmpty) = 1 := by
              simp
            rw [hcount, hp1, hm]
            rfl
          | succ j =>
            rw [List.getElem?_cons_succ] at hi hi'
            have hm1 : (⟨(scanSites (env t).avail sites st.accounted).acc,
                escalate st.gen, escalate st.gen, st.batches⟩ : PollState σ).gen
                  = genVal (m + 1) := by
              show escalate st.gen = genVal (m + 1)
              rw [hm]
              rfl
            have := ih (t + 1) _ (m + 1) hm1 j c c' p' hi hc0 hcb hi' hp'
            rw [this]
            have htake : List.take (j + 1 + 1)
                (({ failures := (env t).failures, sleep := some st.pause,
                    reads := (scanSites (env t).avail sites st.accounted).reads,
                    batch := [] } : Cycle σ)
                  :: (pollLoop env sites f (t + 1)
                    ⟨(scanSites (env t).avail sites st.accounted).acc,
                      escalate st.gen, escalate st.gen, st.batches⟩).cycles)
                = { failures := (env t).failures, sleep := some st.pause,
                    reads := (scanSites (env t).avail sites st.accounted).reads,
                    batch := [] }
                  :: List.take (j + 1) (pollLoop env sites f (t + 1)
                    ⟨(scanSites (env t).avail sites st.accounted).acc,
                      escalate st.gen, escalate st.gen, st.batches⟩).cycles := rfl
            rw [htake, List.countP_cons]
            norm_num
            exact congrArg genVal (by omega)
        · simp only [if_neg hg, if_neg hf, hb, if_false] at hi hi' ⊢
          cases i with
          | zero =>
            rw [List.getElem?_cons_zero, Option.some.injEq] at hi
            rw [← hi] at hcb
            simp at hcb
            exact absurd hcb hb
          | succ j =>
            rw [List.getElem?_cons_succ] at hi hi'
            have hm1 : (⟨(scanSites (env t).avail sites st.accounted).acc,
                decay st.pause, st.gen,
                st.batches ++ [(scanSites (env t).avail sites st.accounted).batch]⟩
                  : PollState σ).gen = genVal m := hm
            have := ih (t + 1) _ m hm1 j c c' p' hi hc0 hcb hi' hp'
            rw [this]
            have htake : List.take (j + 1 + 1)
                (({ failures := (env t).failures, sleep := some st.pause,
                    reads := (scanSites (env t).avail sites st.accounted).reads,
                    batch := (scanSites (env t).avail sites st.accounted).batch } : Cycle σ)
                  :: (pollLoop env sites f (t + 1)
                    ⟨(scanSites (env t).avail sites st.accounted).acc,
                      decay st.pause, st.gen,
                      st.batches ++ [(scanSites (env t).avail sites st.accounted).batch]⟩).cycles)
                = { failures := (env t).failures, sleep := some st.pause,
                    reads := (scanSites (env t).avail sites st.accounted).reads,
                    batch := (scanSites (env t).avail sites st.accounted).batch }
                  :: List.take (j + 1) (pollLoop env sites f (t + 1)
                    ⟨(scanSites (env t).avail sites st.accounted).acc,
                      decay st.pause, st.gen,
                      st.batches ++ [(scanSites (env t).avail sites st.accounted).batch]⟩).cycles := rfl
            rw [htake, List.countP_cons]
            have hne : ((scanSites (env t).avail sites st.accounted).batch.isEmpty : Bool)
                = false := by
              cases hx : (scanSites (env t).avail sites st.accounted).batch with
              | nil => exact absurd hx hb
              | cons a l => simp
            simp only [hne]
            norm_num

/-- Claim C4, counterexample: in the run driven by `cexEnv`, cycle 2
completes zero sites while its slept pause 0.16 is below 45, yet the
next slept pause is 0.4, not 0.16 * 2 = 0.32 — the escalation resumes
from the generator's own value (0.2 doubled), it does not double the
decayed pause. -/
theorem serialize_pause_doubling_counterexample :
    (serialize_hazard_curve cexEnv ([0, 1] : List Nat) 5).cycles
        = [⟨0, some 0.1, [0, 1], []⟩, ⟨0, some 0.2, [0, 1], [0]⟩,
           ⟨0, some 0.16, [1], []⟩, ⟨0, some 0.4, [1], [1]⟩]
      ∧ (0.16 : ℚ) < 45
      ∧ decide ((0.4 : ℚ) = 0.16 * 2) = false := by
  refine ⟨?_, by norm_num, ?_⟩
  · norm_num +decide [serialize_hazard_curve, pollLoop, scanSites, initState,
      escalate, decay, minPause, cexEnv, List.dedup]
  · rw [decide_eq_false_iff_not]
    norm_num

/-- Claim C4 (amended): in the polling loop of `serialize_hazard_curve`
the pause starts at `minPause = 0.1`; on every cycle in which zero sites
newly complete the next slept pause is never smaller (it is the doubling
generator's next value, which after decay cycles can exceed double the
current pause), and no slept pause ever exceeds 90; on every cycle with
at least one newly completed site the pause is multiplied by 0.8 and
floored at `minPause`, so it strictly decreases whenever it is above
`minPause`.  The generator itself doubles while below 45 and then stops
growing. -/
theorem serialize_pause_dynamics [DecidableEq σ] (env : Nat → EnvStep σ)
    (sites : List σ) (fuel : Nat) :
    (∀ c : Cycle σ, (serialize_hazard_curve env sites fuel).cycles[0]? = some c
        → ∀ p, c.sleep = some p → p = minPause)
      ∧ (∀ (i : Nat) (c c' : Cycle σ) (p p' : ℚ),
          (serialize_hazard_curve env sites fuel).cycles[i]? = some c
          → (serialize_hazard_curve env sites fuel).cycles[i + 1]? = some c'
          → c.sleep = some p → c'.sleep = some p'
          → (c.batch = [] → p ≤ p')
            ∧ (c.batch ≠ [] → p' = decay p ∧ (minPause < p → p' < p)))
      ∧ (∀ c ∈ (serialize_hazard_curve env sites fuel).cycles, ∀ p : ℚ,
          c.sleep = some p → p ≤ 90)
      ∧ (∀ v : ℚ, v < 45 → escalate v = v * 2)
      ∧ (∀ v : ℚ, 45 ≤ v → escalate v = v) := by
  refine ⟨?_, ?_, ?_, ?_, ?_⟩
  · intro c h p hp
    exact pollLoop_head_sleep env sites.dedup fuel 0 (initState σ) c p h hp
  · intro i c c' p p' hi hi' hp hp'
    exact pollLoop_pause_adjacent env sites.dedup fuel 0 (initState σ)
      pauseInv_init i c c' p p' hi hi' hp hp'
  · intro c hc p hp
    exact pollLoop_pause_bound env sites.dedup fuel 0 (initState σ)
      pauseInv_init c hc p hp
  · intro v hv
    simp [escalate, hv]
  · intro v hv
    simp [escalate, not_lt.mpr hv]

/-- Claim C4 (amended), witness on the `cexEnv` run: the first pause is
`minPause`; the escalation after cycle 0 does not lower it (0.1 to 0.2);
a slept pause (0.2) respects the 90 bound; the decay after the cycle
that found site 0 is 0.2 * 0.8 = 0.16, a strict decrease. -/
theorem serialize_pause_dynamics_witness :
    ((0.1 : ℚ) = minPause) ∧ ((0.1 : ℚ) ≤ 0.2) ∧ ((0.2 : ℚ) ≤ 90)
      ∧ ((0.16 : ℚ) = decay 0.2) ∧ ((0.16 : ℚ) < 0.2) := by
  have hcyc : (serialize_hazard_curve cexEnv ([0, 1] : List Nat) 5).cycles
      = [⟨0, some 0.1, [0, 1], []⟩, ⟨0, some 0.2, [0, 1], [0]⟩,
         ⟨0, some 0.16, [1], []⟩, ⟨0, some 0.4, [1], [1]⟩] := by
    norm_num +decide [serialize_hazard_curve, pollLoop, scanSites, initState,
      escalate, decay, minPause, cexEnv, List.dedup]
  have h := serialize_pause_dynamics cexEnv ([0, 1] : List Nat) 5
  have hadj := h.2.1 1 ⟨0, some 0.2, [0, 1], [0]⟩ ⟨0, some 0.16, [1], []⟩ 0.2 0.16
    (by rw [hcyc]; rfl) (by rw [hcyc]; rfl) rfl rfl
  refine ⟨?_, ?_, ?_, ?_, ?_⟩
  · exact h.1 ⟨0, some 0.1, [0, 1], []⟩ (by rw [hcyc]; rfl) 0.1 rfl
  · exact (h.2.1 0 ⟨0, some 0.1, [0, 1], []⟩ ⟨0, some 0.2, [0, 1], [0]⟩ 0.1 0.2
      (by rw [hcyc]; rfl) (by rw [hcyc]; rfl) rfl rfl).1 rfl
  · exact h.2.2.1 ⟨0, some 0.2, [0, 1], [0]⟩
      (by rw [hcyc]; exact List.mem_cons_of_mem _ (List.mem_cons_self _ _)) 0.2 rfl
  · exact (hadj.2 (by simp)).1
  · exact (hadj.2 (by simp)).2 (by norm_num [minPause])

/-- Claim C9: the pause assigned on a cycle with zero newly completed
sites (and no recorded failure) is the next value of the doubling
generator started at 0.1 — `genVal` of the number of such cycles so far,
which equals `min(0.1 * 2^k, 51.2)` after `k` of them — regardless of
any 0.8-factor decays applied on intervening completion cycles. -/
theorem serialize_escalation_independent [DecidableEq σ] (env : Nat → EnvStep σ)
    (sites : List σ) (fuel : Nat) (i : Nat) (c c' : Cycle σ) (p' : ℚ)
    (hi : (serialize_hazard_curve env sites fuel).cycles[i]? = some c)
    (hf : c.failures = 0) (hb : c.batch = [])
    (hi' : (serialize_hazard_curve env sites fuel).cycles[i + 1]? = some c')
    (hp' : c'.sleep = some p') :
    p' = genVal (((serialize_hazard_curve env sites fuel).cycles.take (i + 1)).countP
        (fun x => x.batch.isEmpty))
      ∧ ∀ k, genVal k = min (minPause * 2 ^ k) (51.2 : ℚ) := by
  constructor
  · have h := pollLoop_escalation_exact env sites.dedup fuel 0 (initState σ) 0 rfl
      i c c' p' hi hf hb hi' hp'
    simpa using h
  · exact genVal_min

/-- Claim C9, witness on the `cexEnv` run: the escalation at cycle 2 — the
second empty-batch cycle, after a decay at cycle 1 — assigns
`genVal 2 = 0.4`, unaffected by the intervening decay. -/
theorem serialize_escalation_independent_witness :
    (0.4 : ℚ) = genVal 2
      ∧ ∀ k, genVal k = min (minPause * 2 ^ k) (51.2 : ℚ) := by
  have hcyc : (serialize_hazard_curve cexEnv ([0, 1] : List Nat) 5).cycles
      = [⟨0, some 0.1, [0, 1], []⟩, ⟨0, some 0.2, [0, 1], [0]⟩,
         ⟨0, some 0.16, [1], []⟩, ⟨0, some 0.4, [1], [1]⟩] := by
    norm_num +decide [serialize_hazard_curve, pollLoop, scanSites, initState,
      escalate, decay, minPause, cexEnv, List.dedup]
  have h := serialize_escalation_independent cexEnv ([0, 1] : List Nat) 5 2
    ⟨0, some 0.16, [1], []⟩ ⟨0, some 0.4, [1], [1]⟩ 0.4
    (by rw [hcyc]; rfl) rfl rfl (by rw [hcyc]; rfl) rfl
  have hcount : ((serialize_hazard_curve cexEnv ([0, 1] : List Nat) 5).cycles.take
      (2 + 1)).countP (fun x => x.batch.isEmpty) = 2 := by
    rw [hcyc]
    rfl
  have h1 := h.1
  rw [hcount] at h1
  exact ⟨h1, h.2⟩

end OpenQuake
